import Mathlib

/-!
Verification development for the VIALabs quickstart-nft repository.

The contract `MyNFT.sol` (ERC721Enumerable + MessageClient) is shallowly
embedded as a multi-ledger transition system: one `LedgerState` per chain id,
a pool of in-flight cross-chain messages, and transactions `mintTx`,
`bridgeTx` (burn + send) and `deliverTx` (`_processMessage`).  The CLI bridge
script's completion watch (`waitForNFTReceived`), the browser bridge modal's
ownership polling, the frontend NFT cache (`fetchNFTsForChain`) and the
deployment reconciler are embedded separately below.
-/

namespace QuickstartNFT

abbrev Address := Nat
abbrev ChainId := Nat
abbrev TokenId := Nat

/-- The `NFTMetadata` struct of `MyNFT.sol`: name, description, image,
origin chain id and mint timestamp. -/
structure NFTMetadata where
  name : String
  description : String
  image : String
  chainId : Nat
  mintedAt : Nat
deriving Repr, DecidableEq

/-- Solidity mapping default value for `NFTMetadata`. -/
def emptyMetadata : NFTMetadata := ⟨"", "", "", 0, 0⟩

/-- Per-chain contract state: ERC721 owner mapping, `_tokenMetadata`
mapping (total, with Solidity zero default) and `nextNftId`. -/
structure LedgerState where
  owner : TokenId → Option Address
  tokenMetadata : TokenId → NFTMetadata
  nextNftId : Nat

/-- An in-flight cross-chain message: `abi.encode(_recipient, _nftId, metadata)`
sent to `destChainId` by `bridge`. -/
structure BridgeMessage where
  destChainId : ChainId
  recipient : Address
  nftId : TokenId
  metadata : NFTMetadata
deriving Repr, DecidableEq

/-- Global state of the multi-ledger system: one deployed contract per chain
plus the pool of sent-but-undelivered messages. -/
structure SysState where
  ledgers : ChainId → LedgerState
  pool : List BridgeMessage

/-- State right after deployment on every chain: no tokens, and the
constructor sets `nextNftId = block.chainid * 10**4`. -/
def initState : SysState where
  ledgers := fun c =>
    { owner := fun _ => none
      tokenMetadata := fun _ => emptyMetadata
      nextNftId := c * 10 ^ 4 }
  pool := []

/-- Transaction `mint()` on chain `c` by `caller` at timestamp `ts`.  `_mint` reverts when
the caller is the zero address or when the token id already exists; otherwise
the token gets owner `caller`, the metadata of `MyNFT.mint` is stored, and
`nextNftId` is incremented.  Returns the new state and the returned token id,
or `none` on revert. -/
def mintTx (c : ChainId) (caller : Address) (ts : Nat) (s : SysState) :
    Option (SysState × TokenId) :=
  let L := s.ledgers c
  let tokenId := L.nextNftId
  if caller = 0 then none
  else if (L.owner tokenId).isSome then none
  else
    some
      ({ s with
          ledgers := Function.update s.ledgers c
            { owner := Function.update L.owner tokenId (some caller)
              tokenMetadata := Function.update L.tokenMetadata tokenId
                { name := "Cross Chain NFT #" ++ Nat.repr tokenId
                  description := "Cross-chain NFT that can be bridged between networks"
                  image := "https://i.postimg.cc/FKkpPByb/cl-logo.png"
                  chainId := c
                  mintedAt := ts }
              nextNftId := L.nextNftId + 1 } },
        tokenId)

/-- Transaction `bridge(_destChainId, _recipient, _nftId)` on chain `c` by `caller`.
The `onlyActiveChain` modifier reverts for an untrusted destination; the
`require` reverts unless the caller owns the token (and `ownerOf` itself
reverts for a nonexistent token).  On success the token is burned and the
message is appended to the pool; `sendOk = false` models a reverting
`_sendMessage`, which aborts the whole transaction. -/
def bridgeTx (trusted : ChainId → ChainId → Bool) (c : ChainId) (caller : Address)
    (destChainId : ChainId) (recipient : Address) (nftId : TokenId) (sendOk : Bool)
    (s : SysState) : Option SysState :=
  if trusted c destChainId then
    match (s.ledgers c).owner nftId with
    | none => none
    | some o =>
      if o = caller then
        if sendOk then
          some
            { s with
                ledgers := Function.update s.ledgers c
                  { s.ledgers c with
                      owner := Function.update (s.ledgers c).owner nftId none }
                pool := s.pool ++
                  [⟨destChainId, recipient, nftId, (s.ledgers c).tokenMetadata nftId⟩] }
        else none
      else none
  else none

/-- Delivery of the pool message at index `idx` to its destination chain,
running `_processMessage`: decode, `_mint(recipient, nftId)` (which reverts if
the recipient is the zero address or the id already exists there), then store
the carried metadata.  A delivered message leaves the pool. -/
def deliverTx (idx : Nat) (s : SysState) : Option SysState :=
  match s.pool[idx]? with
  | none => none
  | some msg =>
    let L := s.ledgers msg.destChainId
    if msg.recipient = 0 then none
    else if (L.owner msg.nftId).isSome then none
    else
      some
        { s with
            ledgers := Function.update s.ledgers msg.destChainId
              { L with
                  owner := Function.update L.owner msg.nftId (some msg.recipient)
                  tokenMetadata := Function.update L.tokenMetadata msg.nftId msg.metadata }
            pool := s.pool.eraseIdx idx }

/-- One external action of the multi-ledger system. -/
inductive Cmd where
  | mint (c : ChainId) (caller : Address) (ts : Nat)
  | bridge (c : ChainId) (caller : Address) (destChainId : ChainId)
      (recipient : Address) (nftId : TokenId) (sendOk : Bool)
  | deliver (idx : Nat)

/-- Execute one action; a reverting transaction leaves the state unchanged. -/
def step (trusted : ChainId → ChainId → Bool) (s : SysState) : Cmd → SysState
  | .mint c caller ts =>
    match mintTx c caller ts s with
    | some (s', _) => s'
    | none => s
  | .bridge c caller d r x ok => (bridgeTx trusted c caller d r x ok s).getD s
  | .deliver idx => (deliverTx idx s).getD s

/-- Run a trace of actions from an arbitrary state. -/
def runFrom (trusted : ChainId → ChainId → Bool) (s : SysState) (t : List Cmd) :
    SysState :=
  t.foldl (step trusted) s

/-- Run a trace from the freshly deployed system. -/
def run (trusted : ChainId → ChainId → Bool) (t : List Cmd) : SysState :=
  runFrom trusted initState t

/-- The namespace chain of a token id (ids are assigned as
`chainId * 10^4 + sequence`). -/
def nsOf (x : TokenId) : ChainId := x / 10 ^ 4

/-- Number of successful `mint()` transactions on chain `c` along a trace
executed from `s`. -/
def mintCountFrom (trusted : ChainId → ChainId → Bool) (c : ChainId)
    (s : SysState) : List Cmd → Nat
  | [] => 0
  | cmd :: rest =>
    (match cmd with
      | .mint c' caller ts =>
        if c' = c ∧ (mintTx c' caller ts s).isSome then 1 else 0
      | _ => 0) + mintCountFrom trusted c (step trusted s cmd) rest

/-! ### Base64 and `tokenURI` (OpenZeppelin `Base64.encode`, `MyNFT.tokenURI`) -/

/-- The standard Base64 alphabet used by OpenZeppelin's `Base64.encode`. -/
def b64Alphabet : List Char :=
  "ABCDEFGHIJKLMNOPQRSTUVWXYZabcdefghijklmnopqrstuvwxyz0123456789+/".toList

/-- Character for a 6-bit group. -/
def b64Char (n : Nat) : Char := b64Alphabet.getD n 'A'

/-- Index of a Base64 character in the alphabet. -/
def b64Idx (ch : Char) : Nat := b64Alphabet.indexOf ch

/-- Encode one full 3-byte group into 4 characters. -/
def enc3 (a b c : Nat) : List Char :=
  [b64Char (a / 4), b64Char (a % 4 * 16 + b / 16),
   b64Char (b % 16 * 4 + c / 64), b64Char (c % 64)]

/-- OpenZeppelin `Base64.encode` over a byte sequence: 3-byte groups become
4 characters; a 2-byte tail becomes 3 characters and `=`; a 1-byte tail
becomes 2 characters and `==`. -/
def base64Encode : List Nat → List Char
  | a :: b :: c :: rest => enc3 a b c ++ base64Encode rest
  | [a, b] => [b64Char (a / 4), b64Char (a % 4 * 16 + b / 16), b64Char (b % 16 * 4), '=']
  | [a] => [b64Char (a / 4), b64Char (a % 4 * 16), '=', '=']
  | [] => []

/-- Base64 decoding, inverse of `base64Encode`. -/
def base64Decode : List Char → List Nat
  | c1 :: c2 :: c3 :: c4 :: rest =>
    if c3 = '=' then [b64Idx c1 * 4 + b64Idx c2 / 16]
    else if c4 = '=' then
      [b64Idx c1 * 4 + b64Idx c2 / 16, b64Idx c2 % 16 * 16 + b64Idx c3 / 4]
    else
      (b64Idx c1 * 4 + b64Idx c2 / 16) :: (b64Idx c2 % 16 * 16 + b64Idx c3 / 4) ::
        (b64Idx c3 % 4 * 64 + b64Idx c4) :: base64Decode rest
  | _ => []

/-- UTF-8 bytes of a string (`bytes(...)` applied to the packed string). -/
def strBytes (s : String) : List Nat := s.toUTF8.toList.map (fun b => b.toNat)

/-- The JSON document built by `tokenURI` via `abi.encodePacked`. -/
def nftJson (md : NFTMetadata) : String :=
  "\x7b\"name\":\"" ++ md.name ++ "\"," ++
  "\"description\":\"" ++ md.description ++ "\"," ++
  "\"image\":\"" ++ md.image ++ "\"," ++
  "\"attributes\":[" ++
  "\x7b\"trait_type\":\"Origin Chain\",\"value\":\"" ++ Nat.repr md.chainId ++ "\"\x7d," ++
  "\x7b\"trait_type\":\"Minted At\",\"value\":\"" ++ Nat.repr md.mintedAt ++ "\"\x7d" ++
  "]\x7d"

/-- View `MyNFT.tokenURI`: reverts (`none`) for a nonexistent token, otherwise the
data URI with the Base64-encoded metadata JSON. -/
def tokenURI (L : LedgerState) (tokenId : TokenId) : Option String :=
  if (L.owner tokenId).isSome then
    some ("data:application/json;base64," ++
      String.mk (base64Encode (strBytes (nftJson (L.tokenMetadata tokenId)))))
  else none

/-! ### Deployment reconciler (`scripts/deploy.js`)

`deploy.js` is not part of the provided sources (only the README and the
consumers of `deployments.json` are), so the reconciler is modelled from the
spec, section 4.2. -/

/-- Modelled from the spec: a target network descriptor from
`network.config.js` (`deploy.js` itself is missing from the sources). -/
structure NetworkCfg where
  networkKey : String
  chainId : Nat
deriving Repr, DecidableEq

/-- Modelled from the spec: a persisted deployment record (chain id, contract
address, network key) as stored in `deployments.json`. -/
structure DeployRecord where
  chainId : Nat
  address : Nat
  networkKey : String
deriving Repr, DecidableEq

/-- Lookup of an existing deployment record by chain id. -/
def findRecord (records : List DeployRecord) (cid : Nat) : Option DeployRecord :=
  records.find? (fun r => r.chainId == cid)

/-- Modelled from the spec: the deploy phase of the reconciler (`deploy.js`
is missing from the sources).  For each target network, reuse an existing
record unchanged; otherwise deploy at the next fresh address drawn from
`supply` and append the new record. -/
def deployPhase : List NetworkCfg → List DeployRecord → List Nat →
    List DeployRecord × List Nat
  | [], recs, supply => (recs, supply)
  | n :: rest, recs, supply =>
    match findRecord recs n.chainId with
    | some _ => deployPhase rest recs supply
    | none =>
      deployPhase rest (recs ++ [⟨n.chainId, supply.headD 0, n.networkKey⟩]) supply.tail

/-- Modelled from the spec: the trust graph applied unconditionally after
deployment — every ordered pair of distinct deployed chain ids. -/
def trustGraph (recs : List DeployRecord) : List (Nat × Nat) :=
  (recs.map (fun r => r.chainId)).flatMap (fun a =>
    (recs.map (fun r => r.chainId)).filterMap (fun b =>
      if a ≠ b then some (a, b) else none))

/-- Modelled from the spec: one reconciler run (`deploy.js` is missing from
the sources): deploy missing networks, then configure the complete trust
graph over all deployed chains, and persist the records. -/
def reconcile (targets : List NetworkCfg) (recs : List DeployRecord)
    (supply : List Nat) : List DeployRecord × List (Nat × Nat) × List Nat :=
  ((deployPhase targets recs supply).1,
   trustGraph (deployPhase targets recs supply).1,
   (deployPhase targets recs supply).2)

/-! ### CLI bridge orchestrator (`scripts/bridge.js`) -/

/-- The `pollInterval` of `waitForNFTReceived`: 10 seconds. -/
def pollIntervalMs : Nat := 10000

/-- Default `timeout` of `waitForNFTReceived`: 5 minutes. -/
def defaultTimeoutMs : Nat := 5 * 60 * 1000

/-- Time of the `k`-th `checkOwnership` call of `waitForNFTReceived`,
in milliseconds after the watch starts: the script performs an immediate
initial check and then polls every `pollInterval`. -/
def cliCheckTime (k : Nat) : Nat := k * pollIntervalMs

/-- Number of ownership checks performed before the timeout timer fires. -/
def cliNumChecks (timeout : Nat) : Nat := (timeout + pollIntervalMs - 1) / pollIntervalMs

/-- The times at which `waitForNFTReceived` queries `ownerOf` on the
destination contract. -/
def cliQueryTimes (timeout : Nat) : List Nat :=
  (List.range (cliNumChecks timeout)).map cliCheckTime

/-- The completion watch `waitForNFTReceived` of `scripts/bridge.js`: polls the destination
contract's `ownerOf(nftId)` (`ownerAt t` is the owner observed at `t`
milliseconds, `none` when `ownerOf` reverts); resolves with the
recipient/nftId pair if some check observes `owner = recipient`, and
resolves with `null` (`none`) when the timeout elapses — it never rejects. -/
def waitForNFTReceived (nftId recipient : Nat) (ownerAt : Nat → Option Nat)
    (timeout : Nat) : Option (Nat × Nat) :=
  if (List.range (cliNumChecks timeout)).any
      (fun k => ownerAt (cliCheckTime k) == some recipient) then
    some (recipient, nftId)
  else none

/-- Exit code of the CLI bridge run (`main().then(() => process.exit(0))`):
a precondition failure is caught and exits 1; otherwise the run exits 0,
independently of the completion watch's result. -/
def bridgeRunExitCode (preconditionFailed : Bool) (watchResult : Option (Nat × Nat)) :
    Nat :=
  if preconditionFailed then 1 else if watchResult.isNone then 0 else 0

/-! ### Browser bridge modal (`BridgeModal`) ownership polling -/

/-- The modal polls every 5 seconds. -/
def modalPollIntervalMs : Nat := 5000

/-- The modal skips checks in the first 10 seconds after source confirmation. -/
def modalSkipWindowMs : Nat := 10000

/-- One tick of the `BridgeModal` polling effect, `elapsedMs` after the source
transaction was confirmed: the handler returns early (no `ownerOf` query)
while `now - sourceConfirmTime < 10000`. -/
def modalQueriesOwner (elapsedMs : Nat) : Bool :=
  if elapsedMs < modalSkipWindowMs then false else true

/-! ### Frontend NFT cache (`fetchNFTsForChain` in the NFT utility module) -/

/-- A cached NFT entry as built by `fetchNFTsForChain`. -/
structure CachedNFT where
  id : Nat
  name : String
  description : String
  image : String
  chainId : Nat
  mintedAt : Nat
  originChain : Nat
deriving Repr, DecidableEq

/-- Frontend cache state: per-chain NFT list (`none` = never set) and
per-chain last-fetch timestamp (`lastFetchTime[chain] || 0`). -/
structure NFTCacheState where
  nfts : Nat → Option (List CachedNFT)
  lastFetchTime : Nat → Nat

/-- Function `fetchNFTsForChain`: skips when inputs are falsy or deployments are
missing, when the target is the current chain, or when the last fetch for the
target was under 10 seconds ago; otherwise performs the remote query
(`remote = none` models a thrown RPC error, which stores `[]` and leaves the
timestamp unchanged).  The boolean records whether a remote query happened. -/
def fetchNFTsForChain (address targetChainId currentChainId now : Nat)
    (deploymentsOk hasRecord : Bool) (remote : Option (List CachedNFT))
    (st : NFTCacheState) : NFTCacheState × Bool :=
  if address = 0 ∨ targetChainId = 0 ∨ deploymentsOk = false then (st, false)
  else if targetChainId = currentChainId then (st, false)
  else if now - st.lastFetchTime targetChainId < 10000 then (st, false)
  else if hasRecord = false then (st, false)
  else
    match remote with
    | none => ({ st with nfts := Function.update st.nfts targetChainId (some []) }, true)
    | some list =>
      ({ st with
          nfts := Function.update st.nfts targetChainId (some list)
          lastFetchTime := Function.update st.lastFetchTime targetChainId now }, true)

/-! ### States and traces used to instantiate the theorems -/

/-- Trust configuration in which every chain accepts every destination. -/
def trustAll : ChainId → ChainId → Bool := fun _ _ => true

/-- A trace performing 10001 mints on chain 1 and then one mint on chain 2. -/
def overMintTrace : List Cmd :=
  List.replicate 10001 (Cmd.mint 1 7 0) ++ [Cmd.mint 2 7 0]

/-- The state reached by `overMintTrace`. -/
def overMintState : SysState := run trustAll overMintTrace

/-- A duplicate-delivery scenario: token 100 already exists on chain 2 while a
message carrying token 100 towards chain 2 is still pending. -/
def dupState : SysState where
  ledgers := fun c =>
    { owner := fun y => if c = 2 ∧ y = 100 then some 7 else none
      tokenMetadata := fun _ => emptyMetadata
      nextNftId := c * 10 ^ 4 }
  pool := [⟨2, 9, 100, emptyMetadata⟩]

/-- A state owning token 10000 on chain 1, with no message in flight. -/
def rtState : SysState where
  ledgers := fun c =>
    { owner := fun y => if c = 1 ∧ y = 10000 then some 5 else none
      tokenMetadata := fun _ => emptyMetadata
      nextNftId := c * 10 ^ 4 }
  pool := []

/-- Metadata of the first token minted on chain 43113. -/
def uriMetadata : NFTMetadata where
  name := "Cross Chain NFT #431130000"
  description := "Cross-chain NFT that can be bridged between networks"
  image := "https://i.postimg.cc/FKkpPByb/cl-logo.png"
  chainId := 43113
  mintedAt := 1

/-- A one-token ledger on chain 43113. -/
def uriLedger : LedgerState where
  owner := fun y => if y = 431130000 then some 7 else none
  tokenMetadata := fun _ => uriMetadata
  nextNftId := 431130001

/-- The two quickstart target networks. -/
def twoNets : List NetworkCfg :=
  [⟨"avalanche-testnet", 43113⟩, ⟨"base-testnet", 84532⟩]

/-- A frontend cache state whose chains were all fetched at time 5000. -/
def cacheState0 : NFTCacheState where
  nfts := fun _ => none
  lastFetchTime := fun _ => 5000

/-! ### Invariant of the multi-ledger system -/

/-- The single-ownership invariant, strengthened for induction: ids respect
their namespace (`ownerLt`, `poolLt`), each id is owned on at most one chain
(`ownerUnique`), an owned id is never simultaneously in flight
(`ownerNotInPool`) and at most one message per id is in flight
(`poolUnique`). -/
structure Inv (s : SysState) : Prop where
  lowerBound : ∀ c, c * 10 ^ 4 ≤ (s.ledgers c).nextNftId
  ownerLt : ∀ c x, ((s.ledgers c).owner x).isSome →
    x < (s.ledgers (nsOf x)).nextNftId
  poolLt : ∀ m ∈ s.pool, m.nftId < (s.ledgers (nsOf m.nftId)).nextNftId
  ownerUnique : ∀ x c c', ((s.ledgers c).owner x).isSome →
    ((s.ledgers c').owner x).isSome → c = c'
  ownerNotInPool : ∀ x c, ((s.ledgers c).owner x).isSome →
    ∀ m ∈ s.pool, m.nftId ≠ x
  poolUnique : ∀ x, s.pool.countP (fun m => m.nftId == x) ≤ 1

/-- Each chain has minted at most `10^4` tokens, so ids are still inside
their origin namespace. -/
def Bnd (s : SysState) : Prop :=
  ∀ c, (s.ledgers c).nextNftId ≤ (c + 1) * 10 ^ 4

/-! ## Theorems -/

theorem mintTx_inv {c caller ts s s' tid} (h : mintTx c caller ts s = some (s', tid)) :
    caller ≠ 0 ∧ (s.ledgers c).owner (s.ledgers c).nextNftId = none ∧
    tid = (s.ledgers c).nextNftId ∧
    s' = { s with
      ledgers := Function.update s.ledgers c
        { owner := Function.update (s.ledgers c).owner (s.ledgers c).nextNftId (some caller)
          tokenMetadata := Function.update (s.ledgers c).tokenMetadata
            (s.ledgers c).nextNftId
            { name := "Cross Chain NFT #" ++ Nat.repr (s.ledgers c).nextNftId
              description := "Cross-chain NFT that can be bridged between networks"
              image := "https://i.postimg.cc/FKkpPByb/cl-logo.png"
              chainId := c
              mintedAt := ts }
          nextNftId := (s.ledgers c).nextNftId + 1 } } := by
  unfold mintTx at h
  by_cases hc : caller = 0
  · rw [if_pos hc] at h
    exact absurd h (by simp)
  · rw [if_neg hc] at h
    cases ho : (s.ledgers c).owner (s.ledgers c).nextNftId with
    | some o => rw [ho] at h; simp at h
    | none =>
      rw [ho] at h
      simp only [Option.isSome_none, Bool.false_eq_true, if_false, Option.some.injEq,
        Prod.mk.injEq] at h
      exact ⟨hc, rfl, h.2.symm, h.1.symm⟩

theorem mintTx_eq {c caller ts s} (hc : caller ≠ 0)
    (ho : (s.ledgers c).owner (s.ledgers c).nextNftId = none) :
    mintTx c caller ts s = some
      ({ s with
          ledgers := Function.update s.ledgers c
            { owner := Function.update (s.ledgers c).owner (s.ledgers c).nextNftId
                (some caller)
              tokenMetadata := Function.update (s.ledgers c).tokenMetadata
                (s.ledgers c).nextNftId
                { name := "Cross Chain NFT #" ++ Nat.repr (s.ledgers c).nextNftId
                  description := "Cross-chain NFT that can be bridged between networks"
                  image := "https://i.postimg.cc/FKkpPByb/cl-logo.png"
                  chainId := c
                  mintedAt := ts }
              nextNftId := (s.ledgers c).nextNftId + 1 } },
        (s.ledgers c).nextNftId) := by
  unfold mintTx
  rw [if_neg hc, ho]
  simp

theorem bridgeTx_inv {trusted : ChainId → ChainId → Bool} {c caller d r x ok s s'}
    (h : bridgeTx trusted c caller d r x ok s = some s') :
    trusted c d = true ∧ (s.ledgers c).owner x = some caller ∧ ok = true ∧
    s' = { s with
      ledgers := Function.update s.ledgers c
        { s.ledgers c with
            owner := Function.update (s.ledgers c).owner x none }
      pool := s.pool ++ [⟨d, r, x, (s.ledgers c).tokenMetadata x⟩] } := by
  unfold bridgeTx at h
  by_cases ht : trusted c d
  · rw [if_pos ht] at h
    cases ho : (s.ledgers c).owner x with
    | none => rw [ho] at h; simp at h
    | some o =>
      rw [ho] at h
      by_cases hoc : o = caller
      · subst hoc
        cases hok : ok with
        | false => rw [hok] at h; simp at h
        | true =>
          rw [hok] at h
          simp only [if_pos rfl, if_true, Option.some.injEq] at h
          exact ⟨ht, rfl, rfl, h.symm⟩
      · simp only [if_neg hoc] at h
        simp at h
  · rw [if_neg ht] at h
    simp at h

theorem deliverTx_inv {idx s s'} (h : deliverTx idx s = some s') :
    ∃ msg, s.pool[idx]? = some msg ∧ msg.recipient ≠ 0 ∧
      (s.ledgers msg.destChainId).owner msg.nftId = none ∧
      s' = { s with
        ledgers := Function.update s.ledgers msg.destChainId
          { s.ledgers msg.destChainId with
              owner := Function.update (s.ledgers msg.destChainId).owner msg.nftId
                (some msg.recipient)
              tokenMetadata := Function.update (s.ledgers msg.destChainId).tokenMetadata
                msg.nftId msg.metadata }
        pool := s.pool.eraseIdx idx } := by
  unfold deliverTx at h
  cases hp : s.pool[idx]? with
  | none => rw [hp] at h; simp at h
  | some msg =>
    rw [hp] at h
    by_cases hr : msg.recipient = 0
    · simp [hr] at h
    · cases ho : (s.ledgers msg.destChainId).owner msg.nftId with
      | some o => simp [hr, ho] at h
      | none =>
        simp only [hr, ho, Option.isSome_none, Bool.false_eq_true, if_false,
          ite_false, Option.some.injEq, ne_eq] at h
        exact ⟨msg, rfl, hr, ho, h.symm⟩

theorem step_mint_some {trusted : ChainId → ChainId → Bool} {c caller ts s s' tid}
    (h : mintTx c caller ts s = some (s', tid)) :
    step trusted s (.mint c caller ts) = s' := by
  simp [step, h]

theorem bridgeTx_untrusted {trusted : ChainId → ChainId → Bool} {c caller d r x ok s}
    (h : trusted c d = false) : bridgeTx trusted c caller d r x ok s = none := by
  unfold bridgeTx
  rw [h]
  simp

theorem bridgeTx_notOwner {trusted : ChainId → ChainId → Bool} {c caller d r x ok s}
    (h : (s.ledgers c).owner x ≠ some caller) :
    bridgeTx trusted c caller d r x ok s = none := by
  unfold bridgeTx
  by_cases ht : trusted c d
  · rw [if_pos ht]
    cases ho : (s.ledgers c).owner x with
    | none => simp
    | some o =>
      have hne : o ≠ caller := fun he => h (he ▸ ho)
      simp [hne]
  · rw [if_neg ht]

theorem bridgeTx_sendFail {trusted : ChainId → ChainId → Bool} {c caller d r x s}
    : bridgeTx trusted c caller d r x false s = none := by
  unfold bridgeTx
  by_cases ht : trusted c d
  · rw [if_pos ht]
    cases ho : (s.ledgers c).owner x with
    | none => simp
    | some o => by_cases hoc : o = caller <;> simp [hoc]
  · rw [if_neg ht]

theorem deliverTx_dup {idx s} {m : BridgeMessage} (hp : s.pool[idx]? = some m)
    (ho : ((s.ledgers m.destChainId).owner m.nftId).isSome) :
    deliverTx idx s = none := by
  unfold deliverTx
  rw [hp]
  by_cases hr : m.recipient = 0
  · simp [hr]
  · simp [hr, ho]

/-- C2. The ledger's `bridge` operation is atomic: a call from a non-owner,
towards an untrusted destination, or whose message send fails, reverts as a
whole and leaves the contract state (owner and metadata included) exactly as
before; and whenever a burn happens, the outbound message is part of the same
transition — no burn without a send. -/
theorem bridge_precondition_atomicity
    (trusted : ChainId → ChainId → Bool) (s : SysState)
    (c : ChainId) (caller : Address) (d : ChainId) (r : Address) (x : TokenId)
    (ok : Bool) :
    ((trusted c d = false ∨ (s.ledgers c).owner x ≠ some caller ∨ ok = false) →
      bridgeTx trusted c caller d r x ok s = none ∧
      step trusted s (.bridge c caller d r x ok) = s) ∧
    (∀ s', bridgeTx trusted c caller d r x ok s = some s' →
      s'.pool = s.pool ++ [⟨d, r, x, (s.ledgers c).tokenMetadata x⟩] ∧
      (s'.ledgers c).owner x = none ∧
      (s'.ledgers c).tokenMetadata x = (s.ledgers c).tokenMetadata x ∧
      trusted c d = true ∧ (s.ledgers c).owner x = some caller ∧ ok = true) := by
  constructor
  · intro h
    have hn : bridgeTx trusted c caller d r x ok s = none := by
      rcases h with h | h | h
      · exact bridgeTx_untrusted h
      · exact bridgeTx_notOwner h
      · exact h ▸ bridgeTx_sendFail
    exact ⟨hn, by simp [step, hn]⟩
  · intro s' hs
    obtain ⟨ht, ho, hok, rfl⟩ := bridgeTx_inv hs
    refine ⟨rfl, ?_, ?_, ht, ho, hok⟩
    · simp [Function.update_same]
    · simp [Function.update_same]

theorem bridge_precondition_atomicity_witness :
    bridgeTx (fun _ _ => false) 1 5 2 6 10000 true rtState = none ∧
    step (fun _ _ => false) rtState (.bridge 1 5 2 6 10000 true) = rtState :=
  (bridge_precondition_atomicity (fun _ _ => false) rtState 1 5 2 6 10000 true).1
    (Or.inl rfl)

/-- C10. Duplicate-delivery guard: an inbound bridge message whose token id
already exists on the receiving ledger makes `_processMessage` revert
(`_mint` rejects an existing id), leaving the whole state — in particular
that token's owner and stored metadata — unchanged. -/
theorem duplicate_delivery_reverts (trusted : ChainId → ChainId → Bool)
    (s : SysState) (idx : Nat) (m : BridgeMessage)
    (hp : s.pool[idx]? = some m)
    (ho : ((s.ledgers m.destChainId).owner m.nftId).isSome) :
    deliverTx idx s = none ∧ step trusted s (.deliver idx) = s := by
  have hn := deliverTx_dup hp ho
  exact ⟨hn, by simp [step, hn]⟩

theorem duplicate_delivery_reverts_witness :
    deliverTx 0 dupState = none ∧ step trustAll dupState (.deliver 0) = dupState :=
  duplicate_delivery_reverts trustAll dupState 0 ⟨2, 9, 100, emptyMetadata⟩
    rfl (by decide)

/-- C9. Cache debounce: a `fetchNFTsForChain` call for a non-current chain
whose last recorded fetch is under 10 seconds old returns without any remote
query and without modifying the cached NFT lists or the last-fetch
timestamps. -/
theorem fetch_debounce_skips (address target current now : Nat)
    (dep hasRec : Bool) (remote : Option (List CachedNFT)) (st : NFTCacheState)
    (hne : target ≠ current)
    (hrecent : now - st.lastFetchTime target < 10000) :
    fetchNFTsForChain address target current now dep hasRec remote st = (st, false) := by
  unfold fetchNFTsForChain
  by_cases h1 : address = 0 ∨ target = 0 ∨ dep = false
  · rw [if_pos h1]
  · rw [if_neg h1, if_neg hne, if_pos hrecent]

theorem fetch_debounce_skips_witness :
    fetchNFTsForChain 7 84532 43113 9000 true true none cacheState0 =
      (cacheState0, false) :=
  fetch_debounce_skips 7 84532 43113 9000 true true none cacheState0
    (by decide) (by decide)

/-- C7. A timed-out completion watch is not a failure: when the destination
owner never equals the recipient at any check before the timeout,
`waitForNFTReceived` resolves normally with `null` (it has no rejection
path), and the CLI bridge run still exits with status zero. -/
theorem timeout_resolves_null (nftId recipient : Nat) (ownerAt : Nat → Option Nat)
    (timeout : Nat)
    (h : ∀ k, k < cliNumChecks timeout → ownerAt (cliCheckTime k) ≠ some recipient) :
    waitForNFTReceived nftId recipient ownerAt timeout = none ∧
    bridgeRunExitCode false (waitForNFTReceived nftId recipient ownerAt timeout) = 0 := by
  have hany : (List.range (cliNumChecks timeout)).any
      (fun k => ownerAt (cliCheckTime k) == some recipient) = false := by
    rw [List.any_eq_false]
    intro k hk
    simpa using h k (List.mem_range.mp hk)
  unfold waitForNFTReceived
  rw [hany]
  exact ⟨rfl, rfl⟩

theorem timeout_resolves_null_witness :
    waitForNFTReceived 431130000 5 (fun _ => none) defaultTimeoutMs = none ∧
    bridgeRunExitCode false
      (waitForNFTReceived 431130000 5 (fun _ => none) defaultTimeoutMs) = 0 :=
  timeout_resolves_null 431130000 5 (fun _ => none) defaultTimeoutMs
    (fun _ _ => by simp)

/-- C8 counterexample: the CLI completion watch does *not* skip an initial
window — `waitForNFTReceived` performs an immediate `ownerOf` check at
0 ms after source confirmation.  With an owner that matches the recipient
only at time 0, the watch succeeds, and 0 ms is one of its query times,
inside the 10-second window the modal skips. -/
theorem cli_watch_polls_immediately :
    waitForNFTReceived 431130000 5 (fun t => if t = 0 then some 5 else none)
      defaultTimeoutMs = some (5, 431130000) ∧
    (0 : Nat) ∈ cliQueryTimes defaultTimeoutMs ∧ (0 : Nat) < modalSkipWindowMs := by
  refine ⟨by decide, by decide, by decide⟩

/-- C8 (amended). Only the browser bridge modal's completion watch skips the
initial window: its poll ticks issue no destination-owner query while fewer
than 10 seconds have elapsed since source confirmation, and query from
10 seconds on; the CLI watch instead performs its first check immediately
(at 0 ms). -/
theorem watch_initial_window (e : Nat) :
    (e < modalSkipWindowMs → modalQueriesOwner e = false) ∧
    (modalSkipWindowMs ≤ e → modalQueriesOwner e = true) ∧
    cliCheckTime 0 = 0 := by
  refine ⟨?_, ?_, rfl⟩
  · intro h
    simp [modalQueriesOwner, h]
  · intro h
    simp [modalQueriesOwner, Nat.not_lt.mpr h]

theorem watch_initial_window_witness :
    modalQueriesOwner 5000 = false ∧ modalQueriesOwner 10000 = true ∧
    cliCheckTime 0 = 0 :=
  ⟨(watch_initial_window 5000).1 (by decide),
   (watch_initial_window 10000).2.1 (by decide),
   (watch_initial_window 0).2.2⟩

theorem b64Char_ne_pad : ∀ n, n < 64 → b64Char n ≠ '=' := by decide

theorem b64Idx_b64Char : ∀ n, n < 64 → b64Idx (b64Char n) = n := by decide

theorem base64_round_trip :
    ∀ bs : List Nat, (∀ b ∈ bs, b < 256) → base64Decode (base64Encode bs) = bs
  | [] => fun _ => rfl
  | [a] => fun h => by
    have ha : a < 256 := h a (by simp)
    have h1 : b64Idx (b64Char (a / 4)) = a / 4 := b64Idx_b64Char _ (by omega)
    have h2 : b64Idx (b64Char (a % 4 * 16)) = a % 4 * 16 := b64Idx_b64Char _ (by omega)
    simp [base64Encode, base64Decode, h1, h2]
    omega
  | [a, b] => fun h => by
    have ha : a < 256 := h a (by simp)
    have hb : b < 256 := h b (by simp)
    have hc3 : b64Char (b % 16 * 4) ≠ '=' := b64Char_ne_pad _ (by omega)
    have h1 : b64Idx (b64Char (a / 4)) = a / 4 := b64Idx_b64Char _ (by omega)
    have h2 : b64Idx (b64Char (a % 4 * 16 + b / 16)) = a % 4 * 16 + b / 16 :=
      b64Idx_b64Char _ (by omega)
    have h3 : b64Idx (b64Char (b % 16 * 4)) = b % 16 * 4 := b64Idx_b64Char _ (by omega)
    simp [base64Encode, base64Decode, hc3, h1, h2, h3]
    constructor <;> omega
  | a :: b :: c :: rest => fun h => by
    have ha : a < 256 := h a (by simp)
    have hb : b < 256 := h b (by simp)
    have hc : c < 256 := h c (by simp)
    have ih := base64_round_trip rest (fun y hy => h y (by simp [hy]))
    have hc3 : b64Char (b % 16 * 4 + c / 64) ≠ '=' := b64Char_ne_pad _ (by omega)
    have hc4 : b64Char (c % 64) ≠ '=' := b64Char_ne_pad _ (by omega)
    have h1 : b64Idx (b64Char (a / 4)) = a / 4 := b64Idx_b64Char _ (by omega)
    have h2 : b64Idx (b64Char (a % 4 * 16 + b / 16)) = a % 4 * 16 + b / 16 :=
      b64Idx_b64Char _ (by omega)
    have h3 : b64Idx (b64Char (b % 16 * 4 + c / 64)) = b % 16 * 4 + c / 64 :=
      b64Idx_b64Char _ (by omega)
    have h4 : b64Idx (b64Char (c % 64)) = c % 64 := b64Idx_b64Char _ (by omega)
    simp [base64Encode, enc3, base64Decode, hc3, hc4, h1, h2, h3, h4, ih]
    refine ⟨by omega, by omega, by omega⟩

/-- C6. `tokenURI` of an existing token is the `data:application/json;base64,`
prefix followed by the Base64 encoding of the JSON document containing the
token's name, description, image and exactly the two attributes
`Origin Chain` and `Minted At` (decimal strings of the stored values);
for a nonexistent token it reverts.  `base64Decode` certifies that
`base64Encode` is a genuine (injective) Base64 encoding of the bytes. -/
theorem tokenURI_spec (L : LedgerState) (x : TokenId) :
    (∀ a, L.owner x = some a →
      tokenURI L x = some ("data:application/json;base64," ++
        String.mk (base64Encode (strBytes (
          "\x7b\"name\":\"" ++ (L.tokenMetadata x).name ++ "\"," ++
          "\"description\":\"" ++ (L.tokenMetadata x).description ++ "\"," ++
          "\"image\":\"" ++ (L.tokenMetadata x).image ++ "\"," ++
          "\"attributes\":[" ++
          "\x7b\"trait_type\":\"Origin Chain\",\"value\":\"" ++
            Nat.repr (L.tokenMetadata x).chainId ++ "\"\x7d," ++
          "\x7b\"trait_type\":\"Minted At\",\"value\":\"" ++
            Nat.repr (L.tokenMetadata x).mintedAt ++ "\"\x7d" ++
          "]\x7d"))))) ∧
    (L.owner x = none → tokenURI L x = none) ∧
    (∀ bs : List Nat, (∀ b ∈ bs, b < 256) → base64Decode (base64Encode bs) = bs) := by
  refine ⟨?_, ?_, base64_round_trip⟩
  · intro a ha
    unfold tokenURI
    rw [ha]
    rfl
  · intro ha
    unfold tokenURI
    rw [ha]
    rfl

theorem tokenURI_spec_witness :
    tokenURI uriLedger 431130000 = some ("data:application/json;base64," ++
      String.mk (base64Encode (strBytes (nftJson uriMetadata)))) ∧
    base64Decode (base64Encode [72, 105]) = [72, 105] :=
  ⟨(tokenURI_spec uriLedger 431130000).1 7 (by decide),
   (tokenURI_spec uriLedger 0).2.2 [72, 105] (by decide)⟩

theorem findRecord_mono {recs : List DeployRecord} {cid : Nat}
    (ext : List DeployRecord) (h : (findRecord recs cid).isSome) :
    (findRecord (recs ++ ext) cid).isSome := by
  unfold findRecord at h ⊢
  rw [List.find?_isSome] at h ⊢
  obtain ⟨r, hr, hp⟩ := h
  exact ⟨r, List.mem_append_left _ hr, hp⟩

theorem deployPhase_extends : ∀ (targets : List NetworkCfg) (recs : List DeployRecord)
    (supply : List Nat), ∃ ext, (deployPhase targets recs supply).1 = recs ++ ext
  | [], recs, supply => ⟨[], by simp [deployPhase]⟩
  | t :: rest, recs, supply => by
    cases hf : findRecord recs t.chainId with
    | some r =>
      obtain ⟨ext, he⟩ := deployPhase_extends rest recs supply
      exact ⟨ext, by simp [deployPhase, hf, he]⟩
    | none =>
      obtain ⟨ext, he⟩ := deployPhase_extends rest
        (recs ++ [⟨t.chainId, supply.headD 0, t.networkKey⟩]) supply.tail
      refine ⟨⟨t.chainId, supply.headD 0, t.networkKey⟩ :: ext, ?_⟩
      simp only [deployPhase, hf]
      rw [he, List.append_assoc]
      rfl

theorem deployPhase_present : ∀ (targets : List NetworkCfg) (recs : List DeployRecord)
    (supply : List Nat), ∀ n ∈ targets,
    (findRecord ((deployPhase targets recs supply).1) n.chainId).isSome
  | [], _, _ => by simp
  | t :: rest, recs, supply => by
    intro n hn
    cases hf : findRecord recs t.chainId with
    | some r =>
      rcases List.mem_cons.mp hn with rfl | hn'
      · obtain ⟨ext, he⟩ := deployPhase_extends rest recs supply
        simp only [deployPhase, hf, he]
        exact findRecord_mono ext (by rw [hf]; rfl)
      · simp only [deployPhase, hf]
        exact deployPhase_present rest recs supply n hn'
    | none =>
      rcases List.mem_cons.mp hn with rfl | hn'
      · obtain ⟨ext, he⟩ := deployPhase_extends rest
          (recs ++ [⟨n.chainId, supply.headD 0, n.networkKey⟩]) supply.tail
        simp only [deployPhase, hf, he]
        unfold findRecord
        rw [List.find?_isSome]
        refine ⟨⟨n.chainId, supply.headD 0, n.networkKey⟩, ?_, ?_⟩
        · simp
        · simp
      · simp only [deployPhase, hf]
        exact deployPhase_present rest _ supply.tail n hn'

theorem deployPhase_noop : ∀ (targets : List NetworkCfg) (recs : List DeployRecord)
    (supply : List Nat), (∀ n ∈ targets, (findRecord recs n.chainId).isSome) →
    deployPhase targets recs supply = (recs, supply)
  | [], _, _ => fun _ => rfl
  | t :: rest, recs, supply => fun h => by
    obtain ⟨r, hr⟩ := Option.isSome_iff_exists.mp (h t (by simp))
    simp only [deployPhase, hr]
    exact deployPhase_noop rest recs supply (fun n hn => h n (by simp [hn]))

theorem trustGraph_complete (recs : List DeployRecord) (a b : Nat)
    (ha : a ∈ recs.map (fun r => r.chainId)) (hb : b ∈ recs.map (fun r => r.chainId))
    (hne : a ≠ b) : (a, b) ∈ trustGraph recs := by
  unfold trustGraph
  rw [List.mem_flatMap]
  refine ⟨a, ha, ?_⟩
  rw [List.mem_filterMap]
  exact ⟨b, hb, by simp [hne]⟩

/-- C5. Reconciler idempotence: a second reconciler run with the same target
network list redeploys nothing and overwrites nothing — it returns the first
run's deployment records unchanged (addresses included, drawing nothing from
the fresh-address supply) and the same trust graph — and that trust graph is
complete over the deployed chain ids. -/
theorem reconciler_idempotent (targets : List NetworkCfg) (supply1 supply2 : List Nat) :
    reconcile targets (reconcile targets [] supply1).1 supply2 =
      ((reconcile targets [] supply1).1, (reconcile targets [] supply1).2.1, supply2) ∧
    (∀ a b, a ∈ (reconcile targets [] supply1).1.map (fun r => r.chainId) →
      b ∈ (reconcile targets [] supply1).1.map (fun r => r.chainId) → a ≠ b →
      (a, b) ∈ (reconcile targets [] supply1).2.1) := by
  have hnoop := deployPhase_noop targets (deployPhase targets [] supply1).1 supply2
    (fun n hn => deployPhase_present targets [] supply1 n hn)
  constructor
  · unfold reconcile
    rw [hnoop]
  · intro a b ha hb hne
    exact trustGraph_complete _ a b ha hb hne

theorem reconciler_idempotent_witness :
    reconcile twoNets (reconcile twoNets [] [100, 101]).1 [200, 201] =
      ((reconcile twoNets [] [100, 101]).1, (reconcile twoNets [] [100, 101]).2.1,
        [200, 201]) ∧
    (43113, 84532) ∈ (reconcile twoNets [] [100, 101]).2.1 :=
  ⟨(reconciler_idempotent twoNets [100, 101] [200, 201]).1,
   (reconciler_idempotent twoNets [100, 101] [200, 201]).2 43113 84532
     (by decide) (by decide) (by decide)⟩

theorem step_nextNft (trusted : ChainId → ChainId → Bool) (s : SysState) (cmd : Cmd)
    (c : ChainId) :
    ((step trusted s cmd).ledgers c).nextNftId =
      (s.ledgers c).nextNftId +
        (match cmd with
          | .mint c' caller ts => if c' = c ∧ (mintTx c' caller ts s).isSome then 1 else 0
          | _ => 0) := by
  cases cmd with
  | mint c' caller ts =>
    cases h : mintTx c' caller ts s with
    | none => simp [step, h]
    | some p =>
      obtain ⟨s1, tid⟩ := p
      obtain ⟨-, -, -, rfl⟩ := mintTx_inv h
      by_cases hcc : c' = c
      · subst hcc
        simp [step, h, Function.update_same]
      · simp [step, h, Function.update_noteq (Ne.symm hcc), hcc]
  | bridge c' caller d r x ok =>
    cases h : bridgeTx trusted c' caller d r x ok s with
    | none => simp [step, h]
    | some s1 =>
      obtain ⟨-, -, -, rfl⟩ := bridgeTx_inv h
      by_cases hcc : c' = c
      · subst hcc
        simp [step, h, Function.update_same]
      · simp [step, h, Function.update_noteq (Ne.symm hcc)]
  | deliver idx =>
    cases h : deliverTx idx s with
    | none => simp [step, h]
    | some s1 =>
      obtain ⟨m, -, -, -, rfl⟩ := deliverTx_inv h
      by_cases hcc : m.destChainId = c
      · subst hcc
        simp [step, h, Function.update_same]
      · simp [step, h, Function.update_noteq (Ne.symm hcc)]

theorem runFrom_nextNft (trusted : ChainId → ChainId → Bool) (c : ChainId) :
    ∀ (t : List Cmd) (s : SysState),
    ((runFrom trusted s t).ledgers c).nextNftId =
      (s.ledgers c).nextNftId + mintCountFrom trusted c s t
  | [], s => by simp [runFrom, mintCountFrom]
  | cmd :: rest, s => by
    have ih := runFrom_nextNft trusted c rest (step trusted s cmd)
    have hstep := step_nextNft trusted s cmd c
    rw [show runFrom trusted s (cmd :: rest) = runFrom trusted (step trusted s cmd) rest
      from rfl]
    rw [ih, hstep]
    simp only [mintCountFrom]
    omega

/-- C4. Token id assignment: a successful `mint()` on chain `c` after trace
`t` returns and assigns the id `c * 10^4 + n`, where `n` is the number of
successful mints on `c` so far; and ids of the form `c * 10^4 + n` with
`n < 10^4` never collide across distinct chains. -/
theorem mint_id_assignment (trusted : ChainId → ChainId → Bool) (t : List Cmd)
    (c : ChainId) (caller : Address) (ts : Nat) :
    (∀ s' tid, mintTx c caller ts (run trusted t) = some (s', tid) →
      tid = c * 10 ^ 4 + mintCountFrom trusted c initState t ∧
      (s'.ledgers c).owner tid = some caller) ∧
    (∀ c₁ c₂ n₁ n₂, c₁ ≠ c₂ → n₁ < 10 ^ 4 → n₂ < 10 ^ 4 →
      c₁ * 10 ^ 4 + n₁ ≠ c₂ * 10 ^ 4 + n₂) := by
  constructor
  · intro s' tid h
    obtain ⟨hc, ho, htid, rfl⟩ := mintTx_inv h
    constructor
    · rw [htid]
      rw [show run trusted t = runFrom trusted initState t from rfl]
      rw [runFrom_nextNft trusted c t initState]
      rfl
    · rw [htid]
      simp [Function.update_same]
  · intro c₁ c₂ n₁ n₂ hne h1 h2 he
    have hp : (10 : Nat) ^ 4 = 10000 := rfl
    rw [hp] at h1 h2 he
    exact hne (by omega)

theorem mint_id_assignment_witness :
    431130000 = 43113 * 10 ^ 4 + mintCountFrom trustAll 43113 initState [] ∧
    43113 * 10 ^ 4 + 0 ≠ 84532 * 10 ^ 4 + 0 := by
  constructor
  · have h := @mintTx_eq 43113 5 0 (run trustAll []) (by decide) rfl
    exact ((mint_id_assignment trustAll [] 43113 5 0).1 _ _ h).1
  · exact (mint_id_assignment trustAll [] 43113 5 0).2 43113 84532 0 0
      (by decide) (by decide) (by decide)

theorem bridgeTx_eq (trusted : ChainId → ChainId → Bool) (c : ChainId)
    (caller : Address) (d : ChainId) (r : Address) (x : TokenId) (s : SysState)
    (ht : trusted c d = true) (ho : (s.ledgers c).owner x = some caller) :
    bridgeTx trusted c caller d r x true s = some
      { s with
          ledgers := Function.update s.ledgers c
            { s.ledgers c with
                owner := Function.update (s.ledgers c).owner x none }
          pool := s.pool ++ [⟨d, r, x, (s.ledgers c).tokenMetadata x⟩] } := by
  unfold bridgeTx
  rw [ht, ho]
  simp

theorem deliverTx_eq (idx : Nat) (s : SysState) (m : BridgeMessage)
    (hp : s.pool[idx]? = some m) (hr : m.recipient ≠ 0)
    (ho : (s.ledgers m.destChainId).owner m.nftId = none) :
    deliverTx idx s = some
      { s with
          ledgers := Function.update s.ledgers m.destChainId
            { s.ledgers m.destChainId with
                owner := Function.update (s.ledgers m.destChainId).owner m.nftId
                  (some m.recipient)
                tokenMetadata := Function.update (s.ledgers m.destChainId).tokenMetadata
                  m.nftId m.metadata }
          pool := s.pool.eraseIdx idx } := by
  unfold deliverTx
  rw [hp]
  simp [hr, ho]

/-- C3. Round trip: a token owned on network `A` that is bridged to `B`
(message delivered, so `B` mints it) and then bridged back to `A` ends up on
`A` with the identical id and identical metadata (name, description, image,
origin chain id, mint timestamp) as before the first bridge; at the
intermediate stage on `B` the metadata — in particular `originChainId` — is
already carried over unchanged. -/
theorem bridge_round_trip (trusted : ChainId → ChainId → Bool) (s : SysState)
    (A B : ChainId) (caller r r2 : Address) (x : TokenId)
    (hAB : trusted A B = true) (hBA : trusted B A = true) (hne : A ≠ B)
    (hown : (s.ledgers A).owner x = some caller)
    (hBnone : (s.ledgers B).owner x = none)
    (hr : r ≠ 0) (hr2 : r2 ≠ 0) (hpool : s.pool = []) :
    ((runFrom trusted s [.bridge A caller B r x true, .deliver 0,
        .bridge B r A r2 x true, .deliver 0]).ledgers A).owner x = some r2 ∧
    ((runFrom trusted s [.bridge A caller B r x true, .deliver 0,
        .bridge B r A r2 x true, .deliver 0]).ledgers A).tokenMetadata x =
      (s.ledgers A).tokenMetadata x ∧
    ((runFrom trusted s [.bridge A caller B r x true,
        .deliver 0]).ledgers B).tokenMetadata x = (s.ledgers A).tokenMetadata x ∧
    ((runFrom trusted s [.bridge A caller B r x true,
        .deliver 0]).ledgers B).owner x = some r ∧
    (runFrom trusted s [.bridge A caller B r x true, .deliver 0,
        .bridge B r A r2 x true, .deliver 0]).pool = [] := by
  have hBA' : B ≠ A := Ne.symm hne
  simp only [runFrom, List.foldl_cons, List.foldl_nil]
  set s1 := step trusted s (.bridge A caller B r x true) with hs1def
  have hs1 : s1 = { s with
      ledgers := Function.update s.ledgers A
        { s.ledgers A with
            owner := Function.update (s.ledgers A).owner x none }
      pool := s.pool ++ [⟨B, r, x, (s.ledgers A).tokenMetadata x⟩] } := by
    rw [hs1def]
    show (bridgeTx trusted A caller B r x true s).getD s = _
    rw [bridgeTx_eq trusted A caller B r x s hAB hown]
    rfl
  have f1B : s1.ledgers B = s.ledgers B := by
    rw [hs1]
    simp [Function.update_noteq hBA']
  have f1Aowner : (s1.ledgers A).owner x = none := by
    rw [hs1]
    simp [Function.update_same]
  have f1Amd : (s1.ledgers A).tokenMetadata x = (s.ledgers A).tokenMetadata x := by
    rw [hs1]
    simp [Function.update_same]
  have f1pool : s1.pool = [⟨B, r, x, (s.ledgers A).tokenMetadata x⟩] := by
    rw [hs1, hpool]
    rfl
  set s2 := step trusted s1 (.deliver 0) with hs2def
  have hp1 : s1.pool[0]? = some ⟨B, r, x, (s.ledgers A).tokenMetadata x⟩ := by
    rw [f1pool]
    rfl
  have ho1 : (s1.ledgers B).owner x = none := by
    rw [f1B]
    exact hBnone
  have hs2 : s2 = { s1 with
      ledgers := Function.update s1.ledgers B
        { s1.ledgers B with
            owner := Function.update (s1.ledgers B).owner x (some r)
            tokenMetadata := Function.update (s1.ledgers B).tokenMetadata x
              ((s.ledgers A).tokenMetadata x) }
      pool := s1.pool.eraseIdx 0 } := by
    rw [hs2def]
    show (deliverTx 0 s1).getD s1 = _
    rw [deliverTx_eq 0 s1 ⟨B, r, x, (s.ledgers A).tokenMetadata x⟩ hp1 hr ho1]
    rfl
  have f2A : s2.ledgers A = s1.ledgers A := by
    rw [hs2]
    simp [Function.update_noteq hne]
  have f2Bowner : (s2.ledgers B).owner x = some r := by
    rw [hs2]
    simp [Function.update_same]
  have f2Bmd : (s2.ledgers B).tokenMetadata x = (s.ledgers A).tokenMetadata x := by
    rw [hs2]
    simp [Function.update_same]
  have f2pool : s2.pool = [] := by
    rw [hs2, f1pool]
    rfl
  set s3 := step trusted s2 (.bridge B r A r2 x true) with hs3def
  have hs3 : s3 = { s2 with
      ledgers := Function.update s2.ledgers B
        { s2.ledgers B with
            owner := Function.update (s2.ledgers B).owner x none }
      pool := s2.pool ++ [⟨A, r2, x, (s2.ledgers B).tokenMetadata x⟩] } := by
    rw [hs3def]
    show (bridgeTx trusted B r A r2 x true s2).getD s2 = _
    rw [bridgeTx_eq trusted B r A r2 x s2 hBA f2Bowner]
    rfl
  have f3A : s3.ledgers A = s2.ledgers A := by
    rw [hs3]
    simp [Function.update_noteq hne]
  have f3pool : s3.pool = [⟨A, r2, x, (s2.ledgers B).tokenMetadata x⟩] := by
    rw [hs3, f2pool]
    rfl
  set s4 := step trusted s3 (.deliver 0) with hs4def
  have hp3 : s3.pool[0]? = some ⟨A, r2, x, (s2.ledgers B).tokenMetadata x⟩ := by
    rw [f3pool]
    rfl
  have ho3 : (s3.ledgers A).owner x = none := by
    rw [f3A, f2A]
    exact f1Aowner
  have hs4 : s4 = { s3 with
      ledgers := Function.update s3.ledgers A
        { s3.ledgers A with
            owner := Function.update (s3.ledgers A).owner x (some r2)
            tokenMetadata := Function.update (s3.ledgers A).tokenMetadata x
              ((s2.ledgers B).tokenMetadata x) }
      pool := s3.pool.eraseIdx 0 } := by
    rw [hs4def]
    show (deliverTx 0 s3).getD s3 = _
    rw [deliverTx_eq 0 s3 ⟨A, r2, x, (s2.ledgers B).tokenMetadata x⟩ hp3 hr2 ho3]
    rfl
  refine ⟨?_, ?_, f2Bmd, f2Bowner, ?_⟩
  · rw [hs4]
    simp [Function.update_same]
  · rw [hs4]
    simp [Function.update_same]
    rw [f2Bmd]
  · rw [hs4, f3pool]
    rfl

theorem bridge_round_trip_witness :
    ((runFrom trustAll rtState [.bridge 1 5 2 6 10000 true, .deliver 0,
        .bridge 2 6 1 7 10000 true, .deliver 0]).ledgers 1).owner 10000 = some 7 ∧
    ((runFrom trustAll rtState [.bridge 1 5 2 6 10000 true, .deliver 0,
        .bridge 2 6 1 7 10000 true, .deliver 0]).ledgers 1).tokenMetadata 10000 =
      (rtState.ledgers 1).tokenMetadata 10000 ∧
    ((runFrom trustAll rtState [.bridge 1 5 2 6 10000 true,
        .deliver 0]).ledgers 2).tokenMetadata 10000 =
      (rtState.ledgers 1).tokenMetadata 10000 ∧
    ((runFrom trustAll rtState [.bridge 1 5 2 6 10000 true,
        .deliver 0]).ledgers 2).owner 10000 = some 6 ∧
    (runFrom trustAll rtState [.bridge 1 5 2 6 10000 true, .deliver 0,
        .bridge 2 6 1 7 10000 true, .deliver 0]).pool = [] :=
  bridge_round_trip trustAll rtState 1 2 5 6 7 10000 rfl rfl (by decide)
    (by decide) (by decide) (by decide) (by decide) rfl

theorem countP_eraseIdx {α : Type} (p : α → Bool) :
    ∀ (l : List α) (i : Nat) (a : α), l[i]? = some a →
      List.countP p l = List.countP p (l.eraseIdx i) + (if p a then 1 else 0)
  | [], i, a, h => by simp at h
  | b :: l, 0, a, h => by
    simp only [List.getElem?_cons_zero, Option.some.injEq] at h
    subst h
    simp only [List.eraseIdx, List.countP_cons]
  | b :: l, i + 1, a, h => by
    simp only [List.getElem?_cons_succ] at h
    have ih := countP_eraseIdx p l i a h
    simp only [List.eraseIdx, List.countP_cons, ih]
    omega

theorem run_append (trusted : ChainId → ChainId → Bool) (t : List Cmd) (cmd : Cmd) :
    run trusted (t ++ [cmd]) = step trusted (run trusted t) cmd := by
  simp [run, runFrom, List.foldl_append]

theorem inv_initState : Inv initState := by
  refine ⟨?_, ?_, ?_, ?_, ?_, ?_⟩ <;> simp [initState]

theorem inv_step (trusted : ChainId → ChainId → Bool) (s : SysState) (cmd : Cmd)
    (hInv : Inv s) (hB : Bnd (step trusted s cmd)) : Inv (step trusted s cmd) := by
  cases cmd with
  | mint c a ts =>
    cases h : mintTx c a ts s with
    | none =>
      have hstep : step trusted s (.mint c a ts) = s := by simp [step, h]
      rw [hstep]
      exact hInv
    | some p =>
      obtain ⟨s1, tid⟩ := p
      obtain ⟨hc0, hOnone, htid, hs1⟩ := mintTx_inv h
      have hstep : step trusted s (.mint c a ts) = s1 := by simp [step, h]
      rw [hstep] at hB ⊢
      have gOther : ∀ d, d ≠ c → s1.ledgers d = s.ledgers d := by
        intro d hd
        rw [hs1]
        simp [Function.update_noteq hd]
      have gOwn : (s1.ledgers c).owner =
          Function.update (s.ledgers c).owner (s.ledgers c).nextNftId (some a) := by
        rw [hs1]
        simp [Function.update_same]
      have gNext : (s1.ledgers c).nextNftId = (s.ledgers c).nextNftId + 1 := by
        rw [hs1]
        simp [Function.update_same]
      have gPool : s1.pool = s.pool := by rw [hs1]
      have gNextAll : ∀ d, (s.ledgers d).nextNftId ≤ (s1.ledgers d).nextNftId := by
        intro d
        by_cases hd : d = c
        · subst hd
          rw [gNext]
          omega
        · rw [gOther d hd]
      have gOwnAt : ∀ d y, ((s1.ledgers d).owner y).isSome →
          (y = (s.ledgers c).nextNftId ∧ d = c) ∨ ((s.ledgers d).owner y).isSome := by
        intro d y hy
        by_cases hd : d = c
        · rw [hd] at hy ⊢
          rw [gOwn] at hy
          by_cases hxy : y = (s.ledgers c).nextNftId
          · exact Or.inl ⟨hxy, rfl⟩
          · rw [Function.update_noteq hxy] at hy
            exact Or.inr hy
        · rw [gOther d hd] at hy
          exact Or.inr hy
      have hub : (s.ledgers c).nextNftId < (c + 1) * 10 ^ 4 := by
        have hbc := hB c
        rw [gNext] at hbc
        omega
      have hlb := hInv.lowerBound c
      have hns : nsOf (s.ledgers c).nextNftId = c := by
        unfold nsOf
        exact Nat.div_eq_of_lt_le hlb hub
      have hfreshOwn : ∀ d, ¬ ((s.ledgers d).owner ((s.ledgers c).nextNftId)).isSome := by
        intro d hd
        have hlt := hInv.ownerLt d _ hd
        rw [hns] at hlt
        exact absurd hlt (lt_irrefl _)
      have hfreshPool : ∀ m ∈ s.pool, m.nftId ≠ (s.ledgers c).nextNftId := by
        intro m hm he
        have hlt := hInv.poolLt m hm
        rw [he, hns] at hlt
        exact absurd hlt (lt_irrefl _)
      refine ⟨?_, ?_, ?_, ?_, ?_, ?_⟩
      · intro d
        exact le_trans (hInv.lowerBound d) (gNextAll d)
      · intro d y hy
        rcases gOwnAt d y hy with ⟨rfl, rfl⟩ | hOld
        · rw [hns, gNext]
          exact Nat.lt_succ_self _
        · exact lt_of_lt_of_le (hInv.ownerLt d y hOld) (gNextAll (nsOf y))
      · intro m hm
        rw [gPool] at hm
        exact lt_of_lt_of_le (hInv.poolLt m hm) (gNextAll (nsOf m.nftId))
      · intro y d d' hd hd'
        rcases gOwnAt d y hd with ⟨hy1, hdc⟩ | hOld
        · rcases gOwnAt d' y hd' with ⟨hy2, hdc'⟩ | hOld'
          · rw [hdc, hdc']
          · exact absurd (hy1 ▸ hOld') (hfreshOwn d')
        · rcases gOwnAt d' y hd' with ⟨hy2, hdc'⟩ | hOld'
          · exact absurd (hy2 ▸ hOld) (hfreshOwn d)
          · exact hInv.ownerUnique y d d' hOld hOld'
      · intro y d hy m hm
        rw [gPool] at hm
        rcases gOwnAt d y hy with ⟨rfl, rfl⟩ | hOld
        · exact hfreshPool m hm
        · exact hInv.ownerNotInPool y d hOld m hm
      · intro y
        rw [gPool]
        exact hInv.poolUnique y
  | bridge c a d r x ok =>
    cases h : bridgeTx trusted c a d r x ok s with
    | none =>
      have hstep : step trusted s (.bridge c a d r x ok) = s := by simp [step, h]
      rw [hstep]
      exact hInv
    | some s1 =>
      obtain ⟨ht, ho, hok, hs1⟩ := bridgeTx_inv h
      have hstep : step trusted s (.bridge c a d r x ok) = s1 := by simp [step, h]
      rw [hstep]
      have hoS : ((s.ledgers c).owner x).isSome := by rw [ho]; rfl
      have gOther : ∀ e, e ≠ c → s1.ledgers e = s.ledgers e := by
        intro e he
        rw [hs1]
        simp [Function.update_noteq he]
      have gOwn : (s1.ledgers c).owner = Function.update (s.ledgers c).owner x none := by
        rw [hs1]
        simp [Function.update_same]
      have gNextAll : ∀ e, (s1.ledgers e).nextNftId = (s.ledgers e).nextNftId := by
        intro e
        by_cases he : e = c
        · subst he
          rw [hs1]
          simp [Function.update_same]
        · rw [gOther e he]
      have gPool : s1.pool = s.pool ++ [⟨d, r, x, (s.ledgers c).tokenMetadata x⟩] := by
        rw [hs1]
      have gOwnAt : ∀ e y, ((s1.ledgers e).owner y).isSome →
          ((s.ledgers e).owner y).isSome ∧ y ≠ x := by
        intro e y hy
        by_cases he : e = c
        · subst he
          rw [gOwn] at hy
          by_cases hxy : y = x
          · subst hxy
            rw [Function.update_same] at hy
            simp at hy
          · rw [Function.update_noteq hxy] at hy
            exact ⟨hy, hxy⟩
        · rw [gOther e he] at hy
          refine ⟨hy, ?_⟩
          intro hxy
          subst hxy
          exact he (hInv.ownerUnique y e c hy hoS)
      refine ⟨?_, ?_, ?_, ?_, ?_, ?_⟩
      · intro e
        rw [gNextAll e]
        exact hInv.lowerBound e
      · intro e y hy
        rw [gNextAll (nsOf y)]
        exact hInv.ownerLt e y (gOwnAt e y hy).1
      · intro m hm
        rw [gPool] at hm
        rw [gNextAll (nsOf m.nftId)]
        rcases List.mem_append.mp hm with hm' | hm'
        · exact hInv.poolLt m hm'
        · have hme : m = ⟨d, r, x, (s.ledgers c).tokenMetadata x⟩ := by simpa using hm'
          subst hme
          exact hInv.ownerLt c x hoS
      · intro y e e' he he'
        exact hInv.ownerUnique y e e' (gOwnAt e y he).1 (gOwnAt e' y he').1
      · intro y e hy m hm
        rw [gPool] at hm
        rcases List.mem_append.mp hm with hm' | hm'
        · exact hInv.ownerNotInPool y e (gOwnAt e y hy).1 m hm'
        · have hme : m = ⟨d, r, x, (s.ledgers c).tokenMetadata x⟩ := by simpa using hm'
          subst hme
          exact Ne.symm (gOwnAt e y hy).2
      · intro y
        rw [gPool, List.countP_append]
        by_cases hyx : y = x
        · subst hyx
          have h0 : s.pool.countP (fun m => m.nftId == y) = 0 := by
            rw [List.countP_eq_zero]
            intro m hm
            have hne := hInv.ownerNotInPool y c hoS m hm
            simp [hne]
          rw [h0]
          simp
        · have h1 : List.countP (fun m => m.nftId == y)
              [(⟨d, r, x, (s.ledgers c).tokenMetadata x⟩ : BridgeMessage)] = 0 := by
            rw [List.countP_eq_zero]
            intro m hm
            have hme : m = ⟨d, r, x, (s.ledgers c).tokenMetadata x⟩ := by simpa using hm
            subst hme
            simp
            exact fun hc => hyx hc.symm
          rw [h1]
          have hle := hInv.poolUnique y
          omega
  | deliver idx =>
    cases h : deliverTx idx s with
    | none =>
      have hstep : step trusted s (.deliver idx) = s := by simp [step, h]
      rw [hstep]
      exact hInv
    | some s1 =>
      obtain ⟨m, hp, hr0, hmo, hs1⟩ := deliverTx_inv h
      have hstep : step trusted s (.deliver idx) = s1 := by simp [step, h]
      rw [hstep]
      have hmem : m ∈ s.pool := List.getElem?_mem hp
      have gOther : ∀ e, e ≠ m.destChainId → s1.ledgers e = s.ledgers e := by
        intro e he
        rw [hs1]
        simp [Function.update_noteq he]
      have gOwn : (s1.ledgers m.destChainId).owner =
          Function.update (s.ledgers m.destChainId).owner m.nftId (some m.recipient) := by
        rw [hs1]
        simp [Function.update_same]
      have gNextAll : ∀ e, (s1.ledgers e).nextNftId = (s.ledgers e).nextNftId := by
        intro e
        by_cases he : e = m.destChainId
        · subst he
          rw [hs1]
          simp [Function.update_same]
        · rw [gOther e he]
      have gPool : s1.pool = s.pool.eraseIdx idx := by rw [hs1]
      have hsub : List.Sublist (s.pool.eraseIdx idx) s.pool :=
        List.eraseIdx_sublist s.pool idx
      have hNoOwner : ∀ e, ¬ ((s.ledgers e).owner m.nftId).isSome := by
        intro e he
        exact hInv.ownerNotInPool m.nftId e he m hmem rfl
      have gOwnAt : ∀ e y, ((s1.ledgers e).owner y).isSome →
          (e = m.destChainId ∧ y = m.nftId) ∨ ((s.ledgers e).owner y).isSome := by
        intro e y hy
        by_cases he : e = m.destChainId
        · subst he
          rw [gOwn] at hy
          by_cases hxy : y = m.nftId
          · exact Or.inl ⟨rfl, hxy⟩
          · rw [Function.update_noteq hxy] at hy
            exact Or.inr hy
        · rw [gOther e he] at hy
          exact Or.inr hy
      have hcnt := countP_eraseIdx (fun mm => mm.nftId == m.nftId) s.pool idx m hp
      have hcnt1 : (s.pool.eraseIdx idx).countP (fun mm => mm.nftId == m.nftId) = 0 := by
        have hle := hInv.poolUnique m.nftId
        simp only [beq_self_eq_true, if_true] at hcnt
        omega
      have hNoPool : ∀ mm ∈ s.pool.eraseIdx idx, mm.nftId ≠ m.nftId := by
        intro mm hmm
        have hz := List.countP_eq_zero.mp hcnt1 mm hmm
        simpa using hz
      refine ⟨?_, ?_, ?_, ?_, ?_, ?_⟩
      · intro e
        rw [gNextAll e]
        exact hInv.lowerBound e
      · intro e y hy
        rw [gNextAll (nsOf y)]
        rcases gOwnAt e y hy with ⟨he, hye⟩ | hOld
        · subst hye
          exact hInv.poolLt m hmem
        · exact hInv.ownerLt e y hOld
      · intro mm hmm
        rw [gNextAll (nsOf mm.nftId)]
        rw [gPool] at hmm
        exact hInv.poolLt mm (hsub.subset hmm)
      · intro y e e' he he'
        rcases gOwnAt e y he with ⟨rfl, hye⟩ | hOld
        · rcases gOwnAt e' y he' with ⟨rfl, hye'⟩ | hOld'
          · rfl
          · exact absurd (hye ▸ hOld') (hNoOwner e')
        · rcases gOwnAt e' y he' with ⟨rfl, hye'⟩ | hOld'
          · exact absurd (hye' ▸ hOld) (hNoOwner e)
          · exact hInv.ownerUnique y e e' hOld hOld'
      · intro y e hy mm hmm
        rw [gPool] at hmm
        rcases gOwnAt e y hy with ⟨he, hye⟩ | hOld
        · subst hye
          exact hNoPool mm hmm
        · exact hInv.ownerNotInPool y e hOld mm (hsub.subset hmm)
      · intro y
        rw [gPool]
        exact le_trans (List.Sublist.countP_le _ hsub) (hInv.poolUnique y)

theorem inv_run (trusted : ChainId → ChainId → Bool) :
    ∀ t : List Cmd, Bnd (run trusted t) → Inv (run trusted t) := by
  intro t
  induction t using List.reverseRecOn with
  | nil => exact fun _ => inv_initState
  | append_singleton t cmd ih =>
    intro hb
    rw [run_append] at hb ⊢
    have hbt : Bnd (run trusted t) := by
      intro c
      have hmono := step_nextNft trusted (run trusted t) cmd c
      have hbc := hb c
      omega
    exact inv_step trusted (run trusted t) cmd (ih hbt) hb

/-- C1 (amended). Single ownership: in every reachable state of the
multi-ledger system in which each chain has minted at most `10^4` tokens
(so ids are still inside their origin namespace, `nextNftId ≤ (c+1)*10^4`),
every token id has an owner on at most one chain, and an id carried by an
in-flight bridge message has an owner on zero chains.  Without the minting
bound the property fails (see the counterexample). -/
theorem single_owner_invariant (trusted : ChainId → ChainId → Bool) (t : List Cmd)
    (hb : ∀ c, ((run trusted t).ledgers c).nextNftId ≤ (c + 1) * 10 ^ 4) :
    (∀ x c c', (((run trusted t).ledgers c).owner x).isSome →
      (((run trusted t).ledgers c').owner x).isSome → c = c') ∧
    (∀ m ∈ (run trusted t).pool, ∀ c,
      ((run trusted t).ledgers c).owner m.nftId = none) := by
  have hi := inv_run trusted t hb
  refine ⟨hi.ownerUnique, ?_⟩
  intro m hm c
  cases ho : ((run trusted t).ledgers c).owner m.nftId with
  | none => rfl
  | some a =>
    exact absurd rfl (hi.ownerNotInPool m.nftId c (by rw [ho]; rfl) m hm)

theorem single_owner_invariant_witness :
    (∀ x c c', (((run trustAll [Cmd.mint 1 7 0]).ledgers c).owner x).isSome →
      (((run trustAll [Cmd.mint 1 7 0]).ledgers c').owner x).isSome → c = c') ∧
    (∀ m ∈ (run trustAll [Cmd.mint 1 7 0]).pool, ∀ c,
      ((run trustAll [Cmd.mint 1 7 0]).ledgers c).owner m.nftId = none) := by
  refine single_owner_invariant trustAll [Cmd.mint 1 7 0] ?_
  intro c
  rw [show run trustAll [Cmd.mint 1 7 0] = runFrom trustAll initState [Cmd.mint 1 7 0]
    from rfl]
  rw [runFrom_nextNft trustAll c [Cmd.mint 1 7 0] initState]
  have hcnt : mintCountFrom trustAll c initState [Cmd.mint 1 7 0] ≤ 1 := by
    show ((if 1 = c ∧ (mintTx 1 7 0 initState).isSome then 1 else 0) +
      mintCountFrom trustAll c (step trustAll initState (Cmd.mint 1 7 0)) []) ≤ 1
    by_cases h : 1 = c ∧ (mintTx 1 7 0 initState).isSome
    · rw [if_pos h]
      exact le_refl _
    · rw [if_neg h]
      exact Nat.zero_le _
  have hinit : (initState.ledgers c).nextNftId = c * 10 ^ 4 := rfl
  rw [hinit]
  have hp4 : (10 : Nat) ^ 4 = 10000 := rfl
  rw [hp4]
  omega

theorem run_replicate_mint (c : ChainId) (a : Address) (ts : Nat)
    (ha : a ≠ 0) : ∀ n : Nat,
    (∀ d, d ≠ c →
      (run trustAll (List.replicate n (Cmd.mint c a ts))).ledgers d =
        initState.ledgers d) ∧
    ((run trustAll (List.replicate n (Cmd.mint c a ts))).ledgers c).nextNftId =
      c * 10 ^ 4 + n ∧
    (∀ x, ((run trustAll (List.replicate n (Cmd.mint c a ts))).ledgers c).owner x =
      if c * 10 ^ 4 ≤ x ∧ x < c * 10 ^ 4 + n then some a else none) ∧
    (run trustAll (List.replicate n (Cmd.mint c a ts))).pool = [] := by
  intro n
  induction n with
  | zero =>
    have h0 : run trustAll (List.replicate 0 (Cmd.mint c a ts)) = initState := rfl
    rw [h0]
    refine ⟨fun d _ => rfl, by simp [initState], fun x => ?_, rfl⟩
    rw [if_neg]
    · rfl
    · rintro ⟨h1, h2⟩
      rw [Nat.add_zero] at h2
      exact absurd (Nat.lt_of_le_of_lt h1 h2) (Nat.lt_irrefl _)
  | succ n ih =>
    obtain ⟨ihOther, ihNext, ihOwn, ihPool⟩ := ih
    rw [List.replicate_succ' n (Cmd.mint c a ts), run_append]
    set S := run trustAll (List.replicate n (Cmd.mint c a ts)) with hS
    have hONext : (S.ledgers c).owner (S.ledgers c).nextNftId = none := by
      rw [ihOwn, ihNext, if_neg]
      rintro ⟨h1, h2⟩
      exact absurd h2 (lt_irrefl _)
    have hm := @mintTx_eq c a ts S ha hONext
    have hstep := @step_mint_some trustAll c a ts S _ _ hm
    rw [hstep]
    refine ⟨?_, ?_, ?_, ?_⟩
    · intro d hd
      simp only [Function.update_noteq hd]
      exact ihOther d hd
    · simp [Function.update_same, ihNext]
      omega
    · intro x
      simp only [Function.update_same]
      by_cases hx : x = (S.ledgers c).nextNftId
      · rw [hx, Function.update_same, ihNext, if_pos]
      
        exact ⟨Nat.le_add_right _ _, Nat.add_lt_add_left (Nat.lt_succ_self n) _⟩
      · rw [Function.update_noteq hx, ihOwn]
        rw [ihNext] at hx
        by_cases hcond : c * 10 ^ 4 ≤ x ∧ x < c * 10 ^ 4 + n
        · rw [if_pos hcond, if_pos ⟨hcond.1, Nat.lt_succ_of_lt hcond.2⟩]
        · rw [if_neg hcond, if_neg]
          rintro ⟨h1, h2⟩
          exact hcond ⟨h1, Nat.lt_of_le_of_ne (Nat.lt_succ_iff.mp h2) hx⟩
    · exact ihPool

theorem step_mint_fields (trusted : ChainId → ChainId → Bool) (c : ChainId)
    (caller : Address) (ts : Nat) (s : SysState) (hc : caller ≠ 0)
    (ho : (s.ledgers c).owner (s.ledgers c).nextNftId = none) :
    (∀ d, d ≠ c → (step trusted s (.mint c caller ts)).ledgers d = s.ledgers d) ∧
    ((step trusted s (.mint c caller ts)).ledgers c).owner (s.ledgers c).nextNftId
      = some caller := by
  have hm := @mintTx_eq c caller ts s hc ho
  have hstep := @step_mint_some trusted c caller ts s _ _ hm
  rw [hstep]
  constructor
  · intro d hd
    simp [Function.update_noteq hd]
  · simp [Function.update_same]

/-- C1 counterexample: with more than `10^4` mints on chain 1 (10001 of them)
followed by one mint on chain 2, token id 20000 is simultaneously owned on
chain 1 and on chain 2 — so the unconditional claim, over all interleavings
of mint, bridge and delivery, is false. -/
theorem single_owner_cex :
    (overMintState.ledgers 1).owner 20000 = some 7 ∧
    (overMintState.ledgers 2).owner 20000 = some 7 ∧ (1 : ChainId) ≠ 2 := by
  obtain ⟨hOther, hNext, hOwn, hPool⟩ := run_replicate_mint 1 7 0 (by decide) 10001
  have hrun : overMintState =
      step trustAll (run trustAll (List.replicate 10001 (Cmd.mint 1 7 0)))
        (Cmd.mint 2 7 0) := by
    show run trustAll (List.replicate 10001 (Cmd.mint 1 7 0) ++ [Cmd.mint 2 7 0]) = _
    exact run_append trustAll _ _
  have h2led : (run trustAll (List.replicate 10001 (Cmd.mint 1 7 0))).ledgers 2 =
      initState.ledgers 2 := hOther 2 (by decide)
  have h2own : ((run trustAll (List.replicate 10001 (Cmd.mint 1 7 0))).ledgers 2).owner
      ((run trustAll (List.replicate 10001 (Cmd.mint 1 7 0))).ledgers 2).nextNftId =
      none := by
    rw [h2led]
    rfl
  have hf := step_mint_fields trustAll 2 7 0
    (run trustAll (List.replicate 10001 (Cmd.mint 1 7 0))) (by decide) h2own
  have h2next :
      ((run trustAll (List.replicate 10001 (Cmd.mint 1 7 0))).ledgers 2).nextNftId =
      (20000 : TokenId) := by
    rw [h2led]
    rfl
  refine ⟨?_, ?_, by decide⟩
  · rw [hrun, hf.1 1 (by decide), hOwn 20000, if_pos]
    exact (by decide : 1 * 10 ^ 4 ≤ 20000 ∧ 20000 < 1 * 10 ^ 4 + 10001)
  · rw [hrun]
    have ho2 := hf.2
    rw [h2next] at ho2
    exact ho2

end QuickstartNFT
